import Mathlib

/-!
# Verification of the playlist-to-Hitster year-resolution engine

A shallow embedding, in Lean 4, of the core of `spotify_to_hitster.py`:

* the artist-name matcher (`_normalise`, `_artists_match`),
* the date parser (`_year`, modelling Python `int` on a string prefix),
* the year resolver (`find_original_year`), with the MusicBrainz service
  modelled as a record of response functions and with the service calls the
  resolver makes logged explicitly,
* the orchestration loop of `main` (`processTracks`).

Strings are modelled as `List Char`; the embedding covers the ASCII
behaviour of Python's text primitives (`str.lower`, `str.strip`, the `re`
character classes `\w` and `\s`, `int()` parsing), which is the fragment
the program's data takes values in.
-/

namespace Muziekspel

/-- ASCII model of the `re` word class `\w`: alphanumeric or underscore. -/
def isWordChar (c : Char) : Bool := c.isAlphanum || c = '_'

/-- ASCII model of the `re` whitespace class `\s` (also the characters
`str.strip` and `int()` remove at the ends of a string). -/
def isSpaceChar (c : Char) : Bool :=
  c = ' ' || c = '\t' || c = '\n' || c = '\r' || c = '\x0b' || c = '\x0c'

/-- A character `re.sub(r"[^\w\s]", "", name)` keeps. -/
def keepChar (c : Char) : Bool := isWordChar c || isSpaceChar c

/-- `startsWithL n h`: `h` begins with `n` (character lists). -/
def startsWithL : List Char → List Char → Bool
  | [], _ => true
  | _ :: _, [] => false
  | a :: as, b :: bs => a == b && startsWithL as bs

/-- Python's substring test `n in h` on character lists. -/
def isSubOf (needle : List Char) : List Char → Bool
  | [] => needle.isEmpty
  | c :: rest => startsWithL needle (c :: rest) || isSubOf needle rest

/-!
## Regex substitutions of `_normalise`

Each helper below implements one of the `re.sub` calls of `_normalise`, on
character lists, with Python's leftmost / non-overlapping match semantics
(`.` never matching a newline, `\b` judged on the characters of the input
string).
-/

/-- One pass of `re.sub(r"\(.*?\)", "", s)` (and, with other delimiters, of
`re.sub(r"\[.*?\]", "", s)`): a leftmost-shortest match runs from an opening
delimiter to the nearest closing delimiter with no intervening newline.
`pend` buffers (in reverse) the characters consumed since the first still-open
opening delimiter; a newline or the end of the input flushes the buffer, since
every match attempt begun inside it fails. -/
def subDelimAux (op cl : Char) : Option (List Char) → List Char → List Char
  | none, [] => []
  | some pend, [] => pend.reverse
  | none, c :: rest =>
    if c = op then subDelimAux op cl (some [c]) rest
    else c :: subDelimAux op cl none rest
  | some pend, c :: rest =>
    if c = cl then subDelimAux op cl none rest
    else if c = '\n' then pend.reverse ++ '\n' :: subDelimAux op cl none rest
    else subDelimAux op cl (some (c :: pend)) rest

/-- Scanner mode for the `feat.` / `ft.` substitutions: scanning with the
word-character status of the previous character (for `\b`), or discarding the
rest of the current line (the `.*` of a match in progress). -/
inductive ScanMode where
  | scan (prevWord : Bool)
  | skipLine
deriving DecidableEq

/-- `re.sub(r"\bfeat\..*", "", s)`: at a word boundary, `feat.` and the rest
of the line are dropped. -/
def subFeatAux : ScanMode → List Char → List Char
  | .scan prev, 'f' :: 'e' :: 'a' :: 't' :: '.' :: rest =>
    if prev then 'f' :: subFeatAux (.scan true) ('e' :: 'a' :: 't' :: '.' :: rest)
    else subFeatAux .skipLine rest
  | .skipLine, c :: rest =>
    if c = '\n' then c :: subFeatAux (.scan false) rest
    else subFeatAux .skipLine rest
  | .scan _, c :: rest => c :: subFeatAux (.scan (isWordChar c)) rest
  | _, [] => []

/-- `re.sub(r"\bft\..*", "", s)`: as `subFeatAux`, for the token `ft.`. -/
def subFtAux : ScanMode → List Char → List Char
  | .scan prev, 'f' :: 't' :: '.' :: rest =>
    if prev then 'f' :: subFtAux (.scan true) ('t' :: '.' :: rest)
    else subFtAux .skipLine rest
  | .skipLine, c :: rest =>
    if c = '\n' then c :: subFtAux (.scan false) rest
    else subFtAux .skipLine rest
  | .scan _, c :: rest => c :: subFtAux (.scan (isWordChar c)) rest
  | _, [] => []

/-- The `\b` after `the`: holds at the end of the input or before a
non-word character. -/
def boundaryOk : List Char → Bool
  | [] => true
  | c :: _ => !isWordChar c

/-- `re.sub(r"\bthe\b", "", s)`: a standalone word `the` is dropped; the flag
carries whether the previous character of the input is a word character. -/
def subTheAux : Bool → List Char → List Char
  | prev, 't' :: 'h' :: 'e' :: rest =>
    if !prev && boundaryOk rest then subTheAux true rest
    else 't' :: subTheAux true ('h' :: 'e' :: rest)
  | _, c :: rest => c :: subTheAux (isWordChar c) rest
  | _, [] => []

/-- Leading-whitespace removal (half of Python `str.strip`). -/
def lstrip (l : List Char) : List Char := l.dropWhile isSpaceChar

/-- Trailing-whitespace removal (the other half of `str.strip`). -/
def rstrip : List Char → List Char
  | [] => []
  | c :: rest =>
    match rstrip rest with
    | [] => if isSpaceChar c then [] else [c]
    | r => c :: r

/-- Python `str.strip()`: whitespace removed at both ends. -/
def pyStrip (l : List Char) : List Char := lstrip (rstrip l)

/-- `_normalise` of the source: lowercase; drop `(...)` and `[...]` segments;
truncate at `feat.` and `ft.` (word boundary, to end of line); strip
punctuation; drop standalone `the`; strip surrounding whitespace. -/
def _normalise (name : List Char) : List Char :=
  pyStrip (subTheAux false (List.filter keepChar (subFtAux (.scan false)
    (subFeatAux (.scan false) (subDelimAux '[' ']' none
      (subDelimAux '(' ')' none (name.map Char.toLower)))))))

/-- `_artists_match` of the source: normalised equality or substring
containment either way. -/
def _artists_match (a b : List Char) : Bool :=
  let na := _normalise a
  let nb := _normalise b
  na == nb || isSubOf na nb || isSubOf nb na

/-!
## `_year`: Python `int` on the first four characters of a date string
-/

/-- Decimal value of an ASCII digit (meaningful under `Char.isDigit`). -/
def digitVal (c : Char) : Nat := c.toNat - 48

/-- Digits of a Python integer literal after the first: decimal digits with
single underscores allowed between digits. -/
def pyDigitsAux : Nat → List Char → Option Nat
  | acc, [] => some acc
  | acc, c :: rest =>
    if c = '_' then
      match rest with
      | c2 :: rest2 =>
        if c2.isDigit then pyDigitsAux (acc * 10 + digitVal c2) rest2 else none
      | [] => none
    else if c.isDigit then pyDigitsAux (acc * 10 + digitVal c) rest else none

/-- A nonempty run of decimal digits (underscore-separated), as Python `int`
accepts after the optional sign. -/
def pyDigits : List Char → Option Nat
  | [] => none
  | c :: rest => if c.isDigit then pyDigitsAux (digitVal c) rest else none

/-- ASCII model of Python `int(s)` for strings: surrounding whitespace is
stripped, an optional single sign precedes the digits, and anything else
raises `ValueError` (here: `none`). -/
def pyIntParse (l : List Char) : Option Int :=
  match pyStrip l with
  | [] => none
  | c :: rest =>
    if c = '+' then (pyDigits rest).map (fun n => (n : Int))
    else if c = '-' then (pyDigits rest).map (fun n => -(n : Int))
    else (pyDigits (c :: rest)).map (fun n => (n : Int))

/-- `_year` of the source: `None` for the empty string, otherwise
`int(date_str[:4])`, with a `ValueError` giving `None`. -/
def _year (dateStr : List Char) : Option Int :=
  if dateStr.isEmpty then none else pyIntParse (dateStr.take 4)

/-!
## The MusicBrainz data model and `find_original_year`

The recordings, releases and failures the service can answer with are
modelled as data; the two service entry points (`search_recordings`,
`get_recording_by_id`) are the fields of `MBService`. The resolver is
embedded together with the list of service calls it performs, so that the
error-handling claims about retries and per-candidate isolation are
statements about the embedding itself.
-/

/-- One entry of a recording's `artist-credit` list: either a dict carrying
an `artist` with its name, or anything else (a join-phrase string, or a dict
without an `artist` key). -/
inductive ArtistCredit where
  | credit (name : List Char)
  | other
deriving DecidableEq

/-- A recording returned by the search (`id` and `artist-credit`). -/
structure Recording where
  id : List Char
  artistCredit : List ArtistCredit
deriving DecidableEq

/-- A release of a recording; `date` is the free-form date string, the empty
string when the release carries none (`release.get("date", "")`). -/
structure Release where
  date : List Char
deriving DecidableEq

/-- The metadata service: responses of the two API entry points used by the
resolver. A `WebServiceError` is an `Except.error` with its message. -/
structure MBService where
  searchRecordings : List Char → List Char → Nat → Except (List Char) (List Recording)
  getRecordingById : List Char → Except (List Char) (List Release)

/-- A service call the resolver performs (for the call log). -/
inductive MBCall where
  | searchRecordings (title artist : List Char) (limit : Nat)
  | getRecordingById (id : List Char)
deriving DecidableEq

/-- The primary artist-credit name:
`next((c["artist"]["name"] for c in credits if isinstance(c, dict) and "artist" in c), None)`. -/
def firstCreditName : List ArtistCredit → Option (List Char)
  | [] => none
  | .credit n :: _ => some n
  | .other :: rest => firstCreditName rest

/-- The cover filter applied to one candidate:
`if mb_artist and not _artists_match(artist, mb_artist): continue`.
(Python truthiness: a `None` or empty primary credit name never filters.) -/
def coverFiltered (artist : List Char) (rec : Recording) : Bool :=
  match firstCreditName rec.artistCredit with
  | some n => !n.isEmpty && !_artists_match artist n
  | none => false

/-- `if y and (earliest is None or y < earliest)`: the candidate year is
accepted when truthy (nonzero) and smaller than the current minimum. -/
def betterYear (y : Int) (earliest : Option Int) : Bool :=
  y != 0 && (match earliest with | none => true | some m => decide (y < m))

/-- One release's contribution to the running minimum. -/
def updEarliest (earliest : Option Int) (r : Release) : Option Int :=
  match _year r.date with
  | some y => if betterYear y earliest then some y else earliest
  | none => earliest

/-- The per-candidate loop of `find_original_year` (source steps 2 and 3),
threading the running minimum and returning it with the log of
`get_recording_by_id` calls made. -/
def recLoop (svc : MBService) (artist : List Char) :
    List Recording → Option Int → Option Int × List MBCall
  | [], earliest => (earliest, [])
  | rec :: rest, earliest =>
    if coverFiltered artist rec then recLoop svc artist rest earliest
    else
      match svc.getRecordingById rec.id with
      | .error _ =>
        let r := recLoop svc artist rest earliest
        (r.1, .getRecordingById rec.id :: r.2)
      | .ok releases =>
        let r := recLoop svc artist rest (releases.foldl updEarliest earliest)
        (r.1, .getRecordingById rec.id :: r.2)

/-- `find_original_year`, with its service-call log: search (limit 10);
a search failure or an empty result list returns `None` at once; otherwise
the candidate loop reduces to the earliest accepted year. -/
def find_original_year_run (svc : MBService) (title artist : List Char) :
    Option Int × List MBCall :=
  match svc.searchRecordings title artist 10 with
  | .error _ => (none, [.searchRecordings title artist 10])
  | .ok recordings =>
    if recordings.isEmpty then (none, [.searchRecordings title artist 10])
    else
      let r := recLoop svc artist recordings none
      (r.1, .searchRecordings title artist 10 :: r.2)

/-- The year `find_original_year` returns. -/
def find_original_year (svc : MBService) (title artist : List Char) : Option Int :=
  (find_original_year_run svc title artist).1

/-!
## The orchestration loop of `main`
-/

/-- A track record handed to the loop by `get_playlist_tracks`. -/
structure Track where
  title : List Char
  artist : List Char
  spotify_year : Option Int
deriving DecidableEq

/-- The provenance printed for a resolved year. -/
inductive YearSource where
  | musicbrainz
  | spotifyFallback
  | noSource
deriving DecidableEq

/-- Python truthiness of the `mb_year` / `spotify_year` / `year` variables:
`None` and `0` are falsy. -/
def truthyYear : Option Int → Bool
  | none => false
  | some y => y != 0

/-- The `if mb_year: ... elif spotify_year: ... else: ...` chain of `main`. -/
def chooseYear (mbYear spotifyYear : Option Int) : Option Int × YearSource :=
  if truthyYear mbYear then (mbYear, .musicbrainz)
  else if truthyYear spotifyYear then (spotifyYear, .spotifyFallback)
  else (none, .noSource)

/-- The `f"{artist} – {title}"` label of a skipped track. -/
def skipLabel (t : Track) : List Char := t.artist ++ (' ' :: '–' :: ' ' :: []) ++ t.title

/-- One output record: `[title, artist, year]` as appended to `songs` (the
year is the value of the loop's `year` variable at the append). -/
def songRecord (t : Track) (year : Option Int) : List Char × List Char × Option Int :=
  (t.title, t.artist, year)

/-- The per-track loop of `main`: resolve, fall back, and append to `songs`
(year present) or to `skipped` (no year), in input order. -/
def processTracks (svc : MBService) :
    List Track → List (List Char × List Char × Option Int) × List (List Char)
  | [] => ([], [])
  | t :: rest =>
    let mbYear := find_original_year svc t.title t.artist
    let yr := (chooseYear mbYear t.spotify_year).1
    let r := processTracks svc rest
    if truthyYear yr then (songRecord t yr :: r.1, r.2)
    else (r.1, skipLabel t :: r.2)

/-!
## Reduction of `recLoop` to a minimum over collected years
-/

/-- The release list the service holds for a candidate; a failing fetch
contributes no releases. -/
def releasesOf (svc : MBService) (rec : Recording) : List Release :=
  match svc.getRecordingById rec.id with
  | .ok rs => rs
  | .error _ => []

/-- The candidates the cover filter lets through. -/
def survivors (artist : List Char) (recs : List Recording) : List Recording :=
  recs.filter (fun r => !coverFiltered artist r)

/-- The years the reduction accepts from a list of releases: extracted
(non-`None`) and truthy (nonzero). -/
def acceptedYears (rels : List Release) : List Int :=
  (rels.filterMap (fun r => _year r.date)).filter (fun y => y != 0)

/-- All years the reduction ranges over for a search result: the accepted
years of every release of every surviving candidate. -/
def candidateYears (svc : MBService) (artist : List Char) (recs : List Recording) :
    List Int :=
  acceptedYears ((survivors artist recs).flatMap (fun r => releasesOf svc r))

/-- The running-minimum step on an accepted year. -/
def stepInt (e : Option Int) (y : Int) : Option Int :=
  match e with
  | none => some y
  | some m => some (min m y)

/-- The output record `main` produces for a track, if any. -/
def songOut (svc : MBService) (t : Track) : Option (List Char × List Char × Option Int) :=
  let yr := (chooseYear (find_original_year svc t.title t.artist) t.spotify_year).1
  if truthyYear yr then some (songRecord t yr) else none

/-- The skip-log entry `main` produces for a track, if any. -/
def skipOut (svc : MBService) (t : Track) : Option (List Char) :=
  let yr := (chooseYear (find_original_year svc t.title t.artist) t.spotify_year).1
  if truthyYear yr then none else some (skipLabel t)

/-- Whether the scanner of `subTheAux` would find a standalone `the` in the
input (with `prev` the word-character status of the character before it). -/
def hasThe : Bool → List Char → Bool
  | prev, 't' :: 'h' :: 'e' :: rest => (!prev && boundaryOk rest) || hasThe true ('h' :: 'e' :: rest)
  | _, c :: rest => hasThe (isWordChar c) rest
  | _, [] => false


/-!
## Concrete example data (for instantiating the theorems)
-/

/-- A candidate credited to the queried artist. -/
def exRec : Recording := ⟨ "rec-1".data , [ArtistCredit.credit ("Artist".data)]⟩

/-- Releases dated `1994-03-01`, `1967` and `` (empty). -/
def exReleases : List Release := [⟨ "1994-03-01".data ⟩, ⟨ "1967".data ⟩, ⟨[]⟩]

/-- A service answering the search with the one matching candidate above. -/
def exSvc : MBService :=
  { searchRecordings := fun _ _ _ => .ok [exRec]
  , getRecordingById := fun _ => .ok exReleases }

/-- A candidate credited to a different artist (a presumed cover). -/
def exRecCover : Recording := ⟨ "rec-2".data , [ArtistCredit.credit ("Rolling Stones".data)]⟩

/-- A service whose only candidate is the cover above. -/
def exSvcCover : MBService :=
  { searchRecordings := fun _ _ _ => .ok [exRecCover]
  , getRecordingById := fun _ => .ok exReleases }

/-- A service whose search fails with a `WebServiceError`. -/
def exSvcSearchErr : MBService :=
  { searchRecordings := fun _ _ _ => .error ("503".data)
  , getRecordingById := fun _ => .ok exReleases }

/-- A service whose release fetch always fails. -/
def exSvcFetchErr : MBService :=
  { searchRecordings := fun _ _ _ => .ok [exRec]
  , getRecordingById := fun _ => .error ("503".data) }

/-- A track whose fallback (Spotify) year is `0`. -/
def exTrack0 : Track := ⟨ "Song".data , "Artist".data , some 0⟩

/-!
## Theorems: the substring test
-/

theorem startsWithL_iff (n h : List Char) :
    startsWithL n h = true ↔ ∃ v, h = n ++ v := by
  induction n generalizing h with
  | nil => simp [startsWithL]
  | cons a as ih =>
    cases h with
    | nil =>
      simp [startsWithL]
    | cons b bs =>
      simp only [startsWithL, Bool.and_eq_true, beq_iff_eq, ih]
      constructor
      · rintro ⟨rfl, v, rfl⟩; exact ⟨v, rfl⟩
      · rintro ⟨v, hv⟩
        cases hv
        exact ⟨rfl, v, rfl⟩

theorem isSubOf_iff (n h : List Char) :
    isSubOf n h = true ↔ ∃ u v, h = u ++ n ++ v := by
  induction h with
  | nil =>
    constructor
    · intro hs
      refine ⟨[], [], ?_⟩
      simp only [isSubOf, List.isEmpty_iff] at hs
      simp [hs]
    · rintro ⟨u, v, huv⟩
      have hu : u = [] ∧ n ++ v = [] := by
        constructor
        · cases u with
          | nil => rfl
          | cons x xs => simp at huv
        · cases u with
          | nil => simpa using huv.symm
          | cons x xs => simp at huv
      have hn : n = [] := by
        rcases List.append_eq_nil.mp hu.2 with ⟨h1, _⟩; exact h1
      simp [isSubOf, hn]
  | cons c rest ih =>
    simp only [isSubOf, Bool.or_eq_true, startsWithL_iff, ih]
    constructor
    · rintro (⟨v, hv⟩ | ⟨u, v, huv⟩)
      · exact ⟨[], v, by simp [hv]⟩
      · exact ⟨c :: u, v, by simp [huv]⟩
    · rintro ⟨u, v, huv⟩
      cases u with
      | nil => exact Or.inl ⟨v, by simpa using huv⟩
      | cons x xs =>
        right
        refine ⟨xs, v, ?_⟩
        have := huv
        simp only [List.cons_append] at this
        cases this
        rfl

theorem updEarliest_acc {r : Release} {y : Int} (e : Option Int)
    (hy : _year r.date = some y) (h0 : y ≠ 0) : updEarliest e r = stepInt e y := by
  unfold updEarliest
  rw [hy]
  cases e with
  | none => simp [betterYear, stepInt, h0]
  | some m =>
    have hy0 : (y != 0) = true := by simpa using h0
    simp only [betterYear, hy0, Bool.true_and, stepInt]
    by_cases hlt : y < m
    · rw [if_pos (by exact decide_eq_true hlt), min_eq_right (le_of_lt hlt)]
    · rw [if_neg (by simpa using hlt), min_eq_left (not_lt.mp hlt)]

theorem updEarliest_skip {r : Release} (e : Option Int)
    (h : _year r.date = none ∨ _year r.date = some 0) : updEarliest e r = e := by
  unfold updEarliest
  rcases h with h | h <;> rw [h]
  simp [betterYear]

theorem acceptedYears_cons (r : Release) (rest : List Release) :
    acceptedYears (r :: rest) = acceptedYears [r] ++ acceptedYears rest := by
  unfold acceptedYears
  rw [show (r :: rest) = [r] ++ rest from rfl, List.filterMap_append, List.filter_append]

theorem foldl_updEarliest_eq (rels : List Release) (e : Option Int) :
    rels.foldl updEarliest e = (acceptedYears rels).foldl stepInt e := by
  induction rels generalizing e with
  | nil => rfl
  | cons r rest ih =>
    have hstep : updEarliest e r = ((acceptedYears [r]).foldl stepInt e) := by
      cases hy : _year r.date with
      | none =>
        rw [updEarliest_skip e (Or.inl hy)]
        simp [acceptedYears, hy]
      | some y =>
        by_cases h0 : y = 0
        · subst h0
          rw [updEarliest_skip e (Or.inr hy)]
          simp [acceptedYears, hy]
        · rw [updEarliest_acc e hy h0]
          have hy0 : (y != 0) = true := by simpa using h0
          simp [acceptedYears, hy, hy0]
    calc (r :: rest).foldl updEarliest e
        = rest.foldl updEarliest (updEarliest e r) := by simp
      _ = (acceptedYears rest).foldl stepInt (updEarliest e r) := ih _
      _ = (acceptedYears rest).foldl stepInt ((acceptedYears [r]).foldl stepInt e) := by
          rw [hstep]
      _ = (acceptedYears [r] ++ acceptedYears rest).foldl stepInt e := by
          rw [List.foldl_append]
      _ = (acceptedYears (r :: rest)).foldl stepInt e := by
          rw [acceptedYears_cons r rest]

theorem foldl_stepInt_some (ys : List Int) (m : Int) :
    ys.foldl stepInt (some m) = some (ys.foldl min m) := by
  induction ys generalizing m with
  | nil => rfl
  | cons y rest ih => simp [stepInt, ih]

theorem foldl_stepInt_none (ys : List Int) :
    ys.foldl stepInt none = ys.min? := by
  cases ys with
  | nil => rfl
  | cons y rest =>
    simp only [List.foldl_cons, List.min?_cons']
    rw [show stepInt none y = some y from rfl, foldl_stepInt_some]

theorem recLoop_fst (svc : MBService) (artist : List Char) (recs : List Recording)
    (e : Option Int) :
    (recLoop svc artist recs e).1 =
      ((survivors artist recs).flatMap (fun r => releasesOf svc r)).foldl updEarliest e := by
  induction recs generalizing e with
  | nil => rfl
  | cons rec rest ih =>
    by_cases hf : coverFiltered artist rec
    · simp [recLoop, hf, survivors, ih]
    · cases hg : svc.getRecordingById rec.id with
      | error msg =>
        simp [recLoop, hf, hg, survivors, releasesOf, ih]
      | ok rels =>
        simp [recLoop, hf, hg, survivors, releasesOf, ih, List.foldl_append]

instance : Std.Antisymm ((· : Int) ≤ ·) := ⟨fun h h' => Int.le_antisymm h h'⟩

theorem int_min?_eq_some_iff {xs : List Int} {a : Int} :
    xs.min? = some a ↔ a ∈ xs ∧ ∀ b ∈ xs, a ≤ b :=
  List.min?_eq_some_iff (fun a => le_refl a)
    (fun a b => by rcases le_total a b with h | h
                   · exact Or.inl (min_eq_left h)
                   · exact Or.inr (min_eq_right h))
    (fun _ _ _ => le_min_iff)

theorem int_min?_perm {xs ys : List Int} (h : xs.Perm ys) : xs.min? = ys.min? := by
  cases hm : ys.min? with
  | none =>
    have : ys = [] := List.min?_eq_none_iff.mp hm
    subst this
    simpa using List.min?_eq_none_iff.mpr (List.Perm.eq_nil h)
  | some a =>
    rcases int_min?_eq_some_iff.mp hm with ⟨hmem, hle⟩
    exact int_min?_eq_some_iff.mpr
      ⟨(h.mem_iff).mpr hmem, fun b hb => hle b ((h.mem_iff).mp hb)⟩

/-- The central reduction: on a successful search, the resolver's answer is
the minimum of the accepted years over all releases of all surviving
candidates. -/
theorem find_eq_min (svc : MBService) (title artist : List Char)
    (recs : List Recording)
    (hs : svc.searchRecordings title artist 10 = .ok recs) :
    find_original_year svc title artist = (candidateYears svc artist recs).min? := by
  unfold find_original_year find_original_year_run
  rw [hs]
  by_cases hnil : recs = []
  · subst hnil
    simp [candidateYears, survivors, acceptedYears]
  · have : recs.isEmpty = false := by
      cases recs with
      | nil => exact absurd rfl hnil
      | cons a l => rfl
    simp only [this, Bool.false_eq_true, if_false]
    rw [recLoop_fst, foldl_updEarliest_eq, foldl_stepInt_none]
    rfl

theorem betterYear_ne_zero {y : Int} {e : Option Int} (h : betterYear y e = true) :
    y ≠ 0 := by
  unfold betterYear at h
  simp only [Bool.and_eq_true, bne_iff_ne] at h
  exact h.1

theorem updEarliest_ne_zero {e : Option Int} (r : Release) (h : e ≠ some 0) :
    updEarliest e r ≠ some 0 := by
  unfold updEarliest
  cases hy : _year r.date with
  | none => exact h
  | some y =>
    by_cases hb : betterYear y e = true
    · have := betterYear_ne_zero hb
      simp [hb, this]
    · simp only [hb, Bool.false_eq_true, if_false]
      exact h

theorem foldl_updEarliest_ne_zero (rels : List Release) {e : Option Int}
    (h : e ≠ some 0) : rels.foldl updEarliest e ≠ some 0 := by
  induction rels generalizing e with
  | nil => exact h
  | cons r rest ih => exact ih (updEarliest_ne_zero r h)

theorem recLoop_ne_zero (svc : MBService) (artist : List Char)
    (recs : List Recording) {e : Option Int} (h : e ≠ some 0) :
    (recLoop svc artist recs e).1 ≠ some 0 := by
  induction recs generalizing e with
  | nil => exact h
  | cons rec rest ih =>
    by_cases hf : coverFiltered artist rec
    · simpa [recLoop, hf] using ih h
    · cases hg : svc.getRecordingById rec.id with
      | error msg => simpa [recLoop, hf, hg] using ih h
      | ok rels => simpa [recLoop, hf, hg] using ih (foldl_updEarliest_ne_zero rels h)

theorem find_original_year_ne_zero (svc : MBService) (title artist : List Char) :
    find_original_year svc title artist ≠ some 0 := by
  unfold find_original_year find_original_year_run
  cases hs : svc.searchRecordings title artist 10 with
  | error msg => simp
  | ok recs =>
    by_cases hnil : recs.isEmpty
    · simp [hnil]
    · have hne : recs.isEmpty = false := by simpa using hnil
      simpa [hne] using recLoop_ne_zero svc artist recs (by simp)

/-!
## Steps of the candidate loop, and the cover filter
-/

theorem recLoop_cons_filtered (svc : MBService) (artist : List Char)
    (rec : Recording) (rest : List Recording) (e : Option Int)
    (h : coverFiltered artist rec = true) :
    recLoop svc artist (rec :: rest) e = recLoop svc artist rest e := by
  simp [recLoop, h]

theorem recLoop_cons_fetch_error (svc : MBService) (artist : List Char)
    (rec : Recording) (rest : List Recording) (e : Option Int) (msg : List Char)
    (h : svc.getRecordingById rec.id = .error msg) :
    (recLoop svc artist (rec :: rest) e).1 = (recLoop svc artist rest e).1 := by
  by_cases hf : coverFiltered artist rec
  · simp [recLoop, hf]
  · simp [recLoop, hf, h]

theorem recLoop_cons_ok (svc : MBService) (artist : List Char)
    (rec : Recording) (rest : List Recording) (e : Option Int) (rels : List Release)
    (hf : coverFiltered artist rec = false) (h : svc.getRecordingById rec.id = .ok rels) :
    (recLoop svc artist (rec :: rest) e).1 =
      (recLoop svc artist rest (rels.foldl updEarliest e)).1 := by
  simp [recLoop, hf, h]

theorem isSubOf_nil_left (l : List Char) : isSubOf [] l = true := by
  cases l <;> simp [isSubOf, startsWithL]

theorem _artists_match_nil_right (a : List Char) : _artists_match a [] = true := by
  unfold _artists_match
  rw [show _normalise [] = [] from rfl]
  simp [isSubOf_nil_left]

theorem _artists_match_of_nil_left {a : List Char} (h : _normalise a = [])
    (b : List Char) : _artists_match a b = true := by
  unfold _artists_match
  rw [h]
  simp [isSubOf_nil_left]

theorem coverFiltered_true_of_failing_credit {artist : List Char} {rec : Recording}
    {name : List Char} (hn : firstCreditName rec.artistCredit = some name)
    (hm : _artists_match artist name = false) : coverFiltered artist rec = true := by
  have hne : name.isEmpty = false := by
    cases name with
    | nil => rw [_artists_match_nil_right artist] at hm; exact absurd hm (by simp)
    | cons c cs => rfl
  unfold coverFiltered
  rw [hn]
  simp [hne, hm]

theorem coverFiltered_false_of_no_credit {artist : List Char} {rec : Recording}
    (hn : firstCreditName rec.artistCredit = none) : coverFiltered artist rec = false := by
  unfold coverFiltered
  rw [hn]

theorem flatMap_eq_nil_of_forall {α β : Type} (l : List α) (f : α → List β)
    (h : ∀ a ∈ l, f a = []) : l.flatMap f = [] := by
  induction l with
  | nil => rfl
  | cons a rest ih =>
    rw [List.flatMap_cons, h a (by simp), ih (fun x hx => h x (by simp [hx]))]
    rfl

/-!
## The orchestration loop as a `filterMap`
-/

theorem processTracks_eq (svc : MBService) (tracks : List Track) :
    processTracks svc tracks =
      (tracks.filterMap (songOut svc), tracks.filterMap (skipOut svc)) := by
  induction tracks with
  | nil => rfl
  | cons t rest ih =>
    by_cases hy : truthyYear (chooseYear (find_original_year svc t.title t.artist)
        t.spotify_year).1
    · simp [processTracks, songOut, skipOut, hy, ih]
    · simp [processTracks, songOut, skipOut, hy, ih]

/-!
## Evaluation of `_year` on digit-led strings
-/

theorem isDigit_not_space {c : Char} (h : c.isDigit = true) : isSpaceChar c = false := by
  by_contra hs
  have hs' : isSpaceChar c = true := by simpa using hs
  have : c = ' ' ∨ c = '\t' ∨ c = '\n' ∨ c = '\r' ∨ c = '\x0b' ∨ c = '\x0c' := by
    simpa [isSpaceChar, or_assoc] using hs'
  rcases this with rfl | rfl | rfl | rfl | rfl | rfl <;> exact absurd h (by decide)

theorem isDigit_ne {c x : Char} (h : c.isDigit = true) (hx : x.isDigit = false) : c ≠ x := by
  intro he
  rw [he, hx] at h
  exact absurd h (by simp)

theorem rstrip_cons_of_not_space {c : Char} {rest : List Char}
    (h : isSpaceChar c = false) : rstrip (c :: rest) = c :: rstrip rest := by
  show (match rstrip rest with
        | [] => if isSpaceChar c then [] else [c]
        | r => c :: r) = c :: rstrip rest
  cases hr : rstrip rest with
  | nil => simp [h]
  | cons x xs => rfl

theorem pyStrip_digits4 {a b c d : Char} (ha : a.isDigit = true) (hb : b.isDigit = true)
    (hc : c.isDigit = true) (hd : d.isDigit = true) :
    pyStrip [a, b, c, d] = [a, b, c, d] := by
  unfold pyStrip
  rw [rstrip_cons_of_not_space (isDigit_not_space ha),
    rstrip_cons_of_not_space (isDigit_not_space hb),
    rstrip_cons_of_not_space (isDigit_not_space hc),
    rstrip_cons_of_not_space (isDigit_not_space hd)]
  show lstrip [a, b, c, d] = [a, b, c, d]
  unfold lstrip
  rw [List.dropWhile_cons_of_neg (by simp [isDigit_not_space ha])]

theorem pyDigitsAux_cons_digit {b : Char} (hb : b.isDigit = true) (acc : Nat)
    (rest : List Char) :
    pyDigitsAux acc (b :: rest) = pyDigitsAux (acc * 10 + digitVal b) rest := by
  have hb' : b ≠ '_' := isDigit_ne hb (by decide)
  cases rest with
  | nil => rw [pyDigitsAux.eq_3, if_neg hb', if_pos hb]
  | cons c2 rest2 => rw [pyDigitsAux.eq_2, if_neg hb', if_pos hb]

theorem pyDigits_cons (c : Char) (rest : List Char) :
    pyDigits (c :: rest) =
      (if c.isDigit = true then pyDigitsAux (digitVal c) rest else none) := rfl

theorem pyIntParse_of_strip_cons {l : List Char} {c : Char} {rest : List Char}
    (h : pyStrip l = c :: rest) :
    pyIntParse l =
      (if c = '+' then (pyDigits rest).map (fun n => (n : Int))
       else if c = '-' then (pyDigits rest).map (fun n => -(n : Int))
       else (pyDigits (c :: rest)).map (fun n => (n : Int))) := by
  unfold pyIntParse
  rw [h]

theorem _year_digits (a b c d : Char) (rest : List Char)
    (ha : a.isDigit = true) (hb : b.isDigit = true)
    (hc : c.isDigit = true) (hd : d.isDigit = true) :
    _year (a :: b :: c :: d :: rest) =
      some ((1000 * digitVal a + 100 * digitVal b + 10 * digitVal c + digitVal d : Nat) :
        Int) := by
  unfold _year
  rw [if_neg (by simp)]
  have htake : (a :: b :: c :: d :: rest).take 4 = [a, b, c, d] := rfl
  rw [htake]
  have hplus : a ≠ '+' := isDigit_ne ha (by decide)
  have hminus : a ≠ '-' := isDigit_ne ha (by decide)
  have hdig : pyDigits [a, b, c, d] =
      some ((((digitVal a * 10 + digitVal b) * 10 + digitVal c) * 10 + digitVal d)) := by
    rw [pyDigits_cons, if_pos ha, pyDigitsAux_cons_digit hb, pyDigitsAux_cons_digit hc,
      pyDigitsAux_cons_digit hd]
    rfl
  rw [pyIntParse_of_strip_cons (pyStrip_digits4 ha hb hc hd),
    if_neg hplus, if_neg hminus, hdig]
  have hval : (1000 * digitVal a + 100 * digitVal b + 10 * digitVal c + digitVal d : Nat)
      = (((digitVal a * 10 + digitVal b) * 10 + digitVal c) * 10 + digitVal d) := by
    omega
  rw [hval]
  rfl

/-!
## The claims
-/

/-- C1: when the metadata search succeeds, `find_original_year` returns the
minimum accepted `ReleaseYear` (extracted and truthy, per the reduction's own
acceptance test) over every release of every surviving candidate, `none` when
no release contributes one (in particular when there are zero candidates);
and the result is invariant under reordering of the search results and of
each candidate's release list. -/
theorem C1_earliest_year_reduction (svc : MBService) (title artist : List Char)
    (recs : List Recording) (hs : svc.searchRecordings title artist 10 = .ok recs) :
    find_original_year svc title artist = (candidateYears svc artist recs).min?
  ∧ (candidateYears svc artist recs = [] → find_original_year svc title artist = none)
  ∧ (∀ (svc2 : MBService) (recs2 : List Recording),
      svc2.searchRecordings title artist 10 = .ok recs2 → recs2.Perm recs →
      (∀ r : Recording, (releasesOf svc2 r).Perm (releasesOf svc r)) →
      find_original_year svc2 title artist = find_original_year svc title artist) := by
  have h1 := find_eq_min svc title artist recs hs
  refine ⟨h1, ?_, ?_⟩
  · intro hnil
    rw [h1, hnil]
    rfl
  · intro svc2 recs2 hs2 hperm hrel
    have h2 := find_eq_min svc2 title artist recs2 hs2
    rw [h1, h2]
    apply int_min?_perm
    unfold candidateYears acceptedYears
    apply List.Perm.filter
    apply List.Perm.filterMap
    have hsur : (survivors artist recs2).Perm (survivors artist recs) :=
      hperm.filter _
    exact List.Perm.trans (hsur.flatMap_right _)
      (List.Perm.flatMap_left _ (fun a _ => hrel a))

/-- C1 witness: one matching candidate with releases dated `1994-03-01`,
`1967` and the empty string resolves to `1967`. -/
theorem C1_earliest_year_reduction_witness :
    find_original_year exSvc ("Song".data) ("Artist".data) = some 1967 :=
  ((C1_earliest_year_reduction exSvc ("Song".data) ("Artist".data) [exRec] rfl).1).trans
    (by decide)

/-- C2: a candidate whose primary artist-credit name fails `_artists_match`
is discarded (it contributes no service call and no releases); a sole failing
candidate makes the resolver return `none` regardless of its release dates;
and a candidate with no artist-bearing credit entry is not filtered, its
releases still entering the reduction. -/
theorem C2_cover_filter :
    (∀ (svc : MBService) (artist : List Char) (rec : Recording) (rest : List Recording)
       (e : Option Int) (name : List Char),
       firstCreditName rec.artistCredit = some name →
       _artists_match artist name = false →
       recLoop svc artist (rec :: rest) e = recLoop svc artist rest e)
  ∧ (∀ (svc : MBService) (title artist : List Char) (rec : Recording) (name : List Char),
       svc.searchRecordings title artist 10 = .ok [rec] →
       firstCreditName rec.artistCredit = some name →
       _artists_match artist name = false →
       find_original_year svc title artist = none)
  ∧ (∀ (artist : List Char) (rec : Recording),
       firstCreditName rec.artistCredit = none → coverFiltered artist rec = false)
  ∧ (∀ (svc : MBService) (artist : List Char) (rec : Recording) (rest : List Recording)
       (e : Option Int) (rels : List Release),
       firstCreditName rec.artistCredit = none →
       svc.getRecordingById rec.id = .ok rels →
       (recLoop svc artist (rec :: rest) e).1 =
         (recLoop svc artist rest (rels.foldl updEarliest e)).1)
  ∧ find_original_year exSvcCover ("Song".data) ("Beatles".data) = none := by
  refine ⟨?_, ?_, ?_, ?_, by decide⟩
  · intro svc artist rec rest e name hn hm
    exact recLoop_cons_filtered svc artist rec rest e
      (coverFiltered_true_of_failing_credit hn hm)
  · intro svc title artist rec name hs hn hm
    rw [find_eq_min svc title artist [rec] hs]
    have hcf := coverFiltered_true_of_failing_credit hn hm
    unfold candidateYears survivors
    rw [List.filter_cons]
    simp [hcf, acceptedYears]
  · intro artist rec hn
    exact coverFiltered_false_of_no_credit hn
  · intro svc artist rec rest e rels hn hg
    exact recLoop_cons_ok svc artist rec rest e rels
      (coverFiltered_false_of_no_credit hn) hg

/-- C5: a failing metadata search makes `find_original_year` return `none`
at once, the search being the only service call of the whole resolution
(no retry, no release fetches). -/
theorem C5_search_error_aborts (svc : MBService) (title artist msg : List Char)
    (h : svc.searchRecordings title artist 10 = .error msg) :
    find_original_year_run svc title artist =
      (none, [MBCall.searchRecordings title artist 10]) := by
  unfold find_original_year_run
  rw [h]

/-- C5 witness: a service whose search fails with a `503`. -/
theorem C5_search_error_aborts_witness :
    find_original_year_run exSvcSearchErr ("Song".data) ("Artist".data) =
      (none, [MBCall.searchRecordings ("Song".data) ("Artist".data) 10]) :=
  C5_search_error_aborts exSvcSearchErr ("Song".data) ("Artist".data) ("503".data) rfl

/-- C6: a release-fetch failure skips only that candidate (the reduction over
the remaining candidates is unchanged), and if the fetch fails for every
candidate the resolver returns `none` rather than failing. -/
theorem C6_fetch_error_isolated :
    (∀ (svc : MBService) (artist : List Char) (rec : Recording) (rest : List Recording)
       (e : Option Int) (msg : List Char),
       svc.getRecordingById rec.id = .error msg →
       (recLoop svc artist (rec :: rest) e).1 = (recLoop svc artist rest e).1)
  ∧ (∀ (svc : MBService) (title artist : List Char) (recs : List Recording),
       svc.searchRecordings title artist 10 = .ok recs →
       (∀ r ∈ recs, ∃ msg, svc.getRecordingById r.id = .error msg) →
       find_original_year svc title artist = none)
  ∧ find_original_year exSvcFetchErr ("Song".data) ("Artist".data) = none := by
  refine ⟨?_, ?_, by decide⟩
  · intro svc artist rec rest e msg h
    exact recLoop_cons_fetch_error svc artist rec rest e msg h
  · intro svc title artist recs hs hfail
    rw [find_eq_min svc title artist recs hs]
    have hflat : (survivors artist recs).flatMap (fun r => releasesOf svc r) = [] := by
      apply flatMap_eq_nil_of_forall
      intro r hr
      rcases hfail r (List.mem_of_mem_filter hr) with ⟨msg, hmsg⟩
      unfold releasesOf
      rw [hmsg]
    unfold candidateYears
    rw [hflat]
    rfl

/-- C9: the resolver never returns `0`: a release whose extracted year is `0`
contributes nothing to the reduction, and the orchestration treats a `0` from
the resolver exactly as `None` (a date starting `0000` is such a case). -/
theorem C9_resolver_never_zero :
    (∀ (svc : MBService) (title artist : List Char),
       find_original_year svc title artist ≠ some 0)
  ∧ (∀ (rel : Release) (e : Option Int), _year rel.date = some 0 → updEarliest e rel = e)
  ∧ (∀ sp : Option Int, chooseYear (some 0) sp = chooseYear none sp)
  ∧ _year ("0000-01-01".data) = some 0 := by
  refine ⟨find_original_year_ne_zero, ?_, ?_, by decide⟩
  · intro rel e h
    exact updEarliest_skip e (Or.inr h)
  · intro sp
    unfold chooseYear
    simp [truthyYear]

/-- C10: an artist whose normalisation is empty matches every credit (the
empty string is a substring of every string), so no candidate is ever
discarded by the cover filter for such a query artist. -/
theorem C10_empty_normalise_never_filters (a : List Char) (h : _normalise a = []) :
    (∀ b : List Char, _artists_match a b = true)
  ∧ (∀ rec : Recording, coverFiltered a rec = false)
  ∧ (∀ recs : List Recording, survivors a recs = recs) := by
  have hm : ∀ b : List Char, _artists_match a b = true := _artists_match_of_nil_left h
  have hc : ∀ rec : Recording, coverFiltered a rec = false := by
    intro rec
    unfold coverFiltered
    cases hn : firstCreditName rec.artistCredit with
    | none => rfl
    | some n =>
      show (!n.isEmpty && !_artists_match a n) = false
      rw [hm n]
      simp
  refine ⟨hm, hc, ?_⟩
  intro recs
  unfold survivors
  apply List.filter_eq_self.mpr
  intro r _
  rw [hc r]
  rfl

/-- C10 witness: the artist name `The` normalises to the empty string and is
never filtered against any credit. -/
theorem C10_empty_normalise_never_filters_witness :
    _artists_match ("The".data) ("Rolling Stones".data) = true
  ∧ coverFiltered ("The".data) exRecCover = false := by
  have h := C10_empty_normalise_never_filters ("The".data) (by decide)
  exact ⟨h.1 _, h.2.1 _⟩

/-- C4 counterexample: on the three-character date string `196`, `_year`
returns `196` although `196` is not a leading 4-digit year, for which the
claim, read as a biconditional, requires `None`. -/
theorem C4_year_cex : _year ("196".data) = some 196 := by decide

/-- C4 (amended): `_year` returns `None` exactly when the string is empty or
its first (up to four) characters do not parse as a Python integer; on any
string beginning with four ASCII digits it returns the number those digits
spell, which for the release-date formats `YYYY`, `YYYY-MM` and `YYYY-MM-DD`
is the leading 4-digit year; shorter or signed parseable prefixes yield the
corresponding (not necessarily 4-digit) integer, e.g. `196` for `196`. -/
theorem C4_year_extraction :
    _year [] = none
  ∧ (∀ (a b c d : Char) (rest : List Char),
      a.isDigit = true → b.isDigit = true → c.isDigit = true → d.isDigit = true →
      _year (a :: b :: c :: d :: rest) =
        some ((1000 * digitVal a + 100 * digitVal b + 10 * digitVal c + digitVal d : Nat) :
          Int))
  ∧ (∀ s : List Char, _year s = none ↔ (s = [] ∨ pyIntParse (s.take 4) = none))
  ∧ _year ("1967-03-01".data) = some 1967
  ∧ _year ("1967-03".data) = some 1967
  ∧ _year ("1967".data) = some 1967
  ∧ _year ("abcd".data) = none
  ∧ _year [] = none := by
  refine ⟨rfl, ?_, ?_, by decide, by decide, by decide, by decide, rfl⟩
  · intro a b c d rest ha hb hc hd
    exact _year_digits a b c d rest ha hb hc hd
  · intro s
    unfold _year
    cases s with
    | nil => simp
    | cons c rest =>
      rw [if_neg (by simp)]
      simp

/-- C7: `_artists_match a b` holds exactly when the normalised strings are
equal or one is a substring of the other; `The Beatles` matches `Beatles`,
`Beatles` does not match `Rolling Stones`, and `Artist (feat. Other)`
matches `Artist`. -/
theorem C7_matches_iff :
    (∀ a b : List Char, _artists_match a b = true ↔
      (_normalise a = _normalise b
        ∨ (∃ u v, _normalise b = u ++ _normalise a ++ v)
        ∨ (∃ u v, _normalise a = u ++ _normalise b ++ v)))
  ∧ _artists_match ("The Beatles".data) ("Beatles".data) = true
  ∧ _artists_match ("Beatles".data) ("Rolling Stones".data) = false
  ∧ _artists_match ("Artist (feat. Other)".data) ("Artist".data) = true := by
  refine ⟨?_, by decide, by decide, by decide⟩
  intro a b
  unfold _artists_match
  simp only [Bool.or_eq_true, beq_iff_eq, isSubOf_iff, or_assoc]

/-- C3 counterexample: a track whose fallback year is present but `0` is
skipped by the orchestration (Python truthiness), not emitted with the
fallback year as the claim, read literally, requires. -/
theorem C3_orchestration_cex :
    exTrack0.spotify_year = some 0
  ∧ find_original_year exSvcSearchErr exTrack0.title exTrack0.artist = none
  ∧ processTracks exSvcSearchErr [exTrack0] = ([], [skipLabel exTrack0]) := by
  refine ⟨rfl, by decide, by decide⟩

/-- C3 (amended): the orchestration uses a resolver year with source
METADATA_SERVICE; otherwise a present nonzero fallback year with source
FALLBACK; otherwise (fallback absent or zero) the track is excluded from the
output and appended to the skip log; every output record carries a (nonzero)
year; and output and skip records appear in input order (the loop is a
`filterMap` over the input). -/
theorem C3_orchestration_fallback (svc : MBService) (tracks : List Track) :
    processTracks svc tracks =
      (tracks.filterMap (songOut svc), tracks.filterMap (skipOut svc))
  ∧ (∀ (t : Track) (y : Int), find_original_year svc t.title t.artist = some y →
      chooseYear (find_original_year svc t.title t.artist) t.spotify_year =
        (some y, YearSource.musicbrainz))
  ∧ (∀ (t : Track) (fy : Int), find_original_year svc t.title t.artist = none →
      t.spotify_year = some fy → fy ≠ 0 →
      chooseYear (find_original_year svc t.title t.artist) t.spotify_year =
        (some fy, YearSource.spotifyFallback))
  ∧ (∀ t : Track, find_original_year svc t.title t.artist = none →
      (t.spotify_year = none ∨ t.spotify_year = some 0) →
      songOut svc t = none ∧ skipOut svc t = some (skipLabel t))
  ∧ (∀ r ∈ (processTracks svc tracks).1, ∃ y : Int, r.2.2 = some y ∧ y ≠ 0) := by
  refine ⟨processTracks_eq svc tracks, ?_, ?_, ?_, ?_⟩
  · intro t y hy
    have hy0 : y ≠ 0 := by
      intro h0
      exact find_original_year_ne_zero svc t.title t.artist (h0 ▸ hy)
    unfold chooseYear
    rw [hy]
    simp [truthyYear, hy0]
  · intro t fy hmb hsp hfy
    unfold chooseYear
    rw [hmb, hsp]
    simp [truthyYear, hfy]
  · intro t hmb hsp
    have hyr : (chooseYear (find_original_year svc t.title t.artist) t.spotify_year).1
        = none := by
      unfold chooseYear
      rw [hmb]
      rcases hsp with h | h <;> rw [h] <;> simp [truthyYear]
    unfold songOut skipOut
    rw [hyr]
    exact ⟨rfl, rfl⟩
  · intro r hr
    rw [processTracks_eq svc tracks] at hr
    simp only [List.mem_filterMap] at hr

    rcases hr with ⟨t, _, ht⟩
    unfold songOut at ht
    by_cases hy : truthyYear (chooseYear (find_original_year svc t.title t.artist)
        t.spotify_year).1
    · rw [if_pos hy] at ht
      have hrec : songRecord t
          (chooseYear (find_original_year svc t.title t.artist) t.spotify_year).1 = r := by
        injection ht
      cases hyr : (chooseYear (find_original_year svc t.title t.artist) t.spotify_year).1 with
      | none => rw [hyr] at hy; exact absurd hy (by simp [truthyYear])
      | some y =>
        refine ⟨y, ?_, ?_⟩
        · rw [← hrec]
          simp [songRecord, hyr]
        · rw [hyr] at hy
          simpa [truthyYear] using hy
    · rw [if_neg hy] at ht
      exact absurd ht (by simp)

/-!
## Evaluation checks of the embedding on representative inputs

Each equation below evaluates the embedded `_normalise` / `_year` on an
input exercising one corner of the `re.sub` / `int()` semantics (nested or
unclosed delimiters, newlines against `.`, word boundaries, `the` runs,
signs, underscores, whitespace) to the value CPython produces for it.
-/

theorem normalise_evaluation_checks :
    _normalise ("The Beatles".data) = ("beatles".data)
  ∧ _normalise ("AC/DC".data) = ("acdc".data)
  ∧ _normalise ("Artist [Live] (feat. Other)".data) = ("artist".data)
  ∧ _normalise ("A ft. B (remix)".data) = ("a".data)
  ∧ _normalise ("a feat. b\nc feat. d".data) = ("a \nc".data)
  ∧ _normalise ("(a\n(b)c".data) = ("a\nc".data)
  ∧ _normalise ("thethe".data) = ("thethe".data)
  ∧ _normalise ("The The".data) = []
  ∧ _normalise ("o(n) the[x] band".data) = ("o  band".data)
  ∧ _normalise ("xfeat. y".data) = ("xfeat y".data)
  ∧ _normalise ("t.he".data) = []
  ∧ _normalise ("(x".data) = ("x".data) := by
  decide

theorem year_evaluation_checks :
    _year (" 967".data) = some 967
  ∧ _year ("-123".data) = some (-123)
  ∧ _year ("+195".data) = some 195
  ∧ _year ("1_2".data) = some 12
  ∧ _year ("  19".data) = some 19
  ∧ _year ("12-3".data) = none
  ∧ _year ("19678-01".data) = some 1967 := by
  decide

/-!
## Idempotence of `_normalise`: character-level facts
-/

theorem toNat_ofNat_valid {n : Nat} (h : n < 55296) : (Char.ofNat n).toNat = n := by
  unfold Char.ofNat
  rw [dif_pos (Or.inl h)]
  rfl

theorem toLower_toLower (c : Char) : c.toLower.toLower = c.toLower := by
  unfold Char.toLower
  by_cases h : c.toNat ≥ 65 ∧ c.toNat ≤ 90
  · rw [if_pos h]
    have hv : (Char.ofNat (c.toNat + 32)).toNat = c.toNat + 32 :=
      toNat_ofNat_valid (by omega)
    rw [if_neg (by rw [hv]; omega)]
  · rw [if_neg h, if_neg h]

theorem isWordChar_of_space {c : Char} (h : isSpaceChar c = true) :
    isWordChar c = false := by
  have : c = ' ' ∨ c = '\t' ∨ c = '\n' ∨ c = '\r' ∨ c = '\x0b' ∨ c = '\x0c' := by
    simpa [isSpaceChar, or_assoc] using h
  rcases this with rfl | rfl | rfl | rfl | rfl | rfl <;> decide

theorem map_toLower_id {l : List Char} (h : ∀ c ∈ l, c.toLower = c) :
    l.map Char.toLower = l := by
  induction l with
  | nil => rfl
  | cons c rest ih =>
    rw [List.map_cons, h c (by simp), ih (fun x hx => h x (by simp [hx]))]

/-!
## Idempotence of `_normalise`: every stage only emits input characters
-/

theorem mem_subDelimAux {op cl : Char} :
    ∀ (pend : Option (List Char)) (l : List Char) (x : Char), x ∈ subDelimAux op cl pend l →
      x ∈ pend.getD [] ∨ x ∈ l := by
  intro pend l
  induction pend, l using subDelimAux.induct op cl with
  | case1 =>
    intro x hx
    simp [subDelimAux] at hx
  | case2 pend =>
    intro x hx
    simp only [subDelimAux] at hx
    simp at hx
    simp [hx]
  | case3 rest ih =>
    intro x hx
    rw [show subDelimAux op cl none (op :: rest) = subDelimAux op cl (some [op]) rest by
      simp [subDelimAux]] at hx
    rcases ih x hx with h | h
    · simp at h
      simp [h]
    · simp [h]
  | case4 c rest hop ih =>
    intro x hx
    rw [show subDelimAux op cl none (c :: rest) = c :: subDelimAux op cl none rest by
      simp [subDelimAux, hop]] at hx
    rcases List.mem_cons.mp hx with rfl | h
    · simp
    · rcases ih x h with h' | h'
      · simp at h'
      · simp [h']
  | case5 pend rest ih =>
    intro x hx
    rw [show subDelimAux op cl (some pend) (cl :: rest) = subDelimAux op cl none rest by
      simp [subDelimAux]] at hx
    rcases ih x hx with h | h
    · simp at h
    · simp [h]
  | case6 pend rest hncl ih =>
    intro x hx
    rw [show subDelimAux op cl (some pend) ('\n' :: rest) =
        pend.reverse ++ '\n' :: subDelimAux op cl none rest by
      simp [subDelimAux, hncl]] at hx
    rcases List.mem_append.mp hx with h | h
    · simp at h
      simp [h]
    · rcases List.mem_cons.mp h with rfl | h'
      · simp
      · rcases ih x h' with h2 | h2
        · simp at h2
        · simp [h2]
  | case7 pend c rest hcl hnl ih =>
    intro x hx
    rw [show subDelimAux op cl (some pend) (c :: rest) =
        subDelimAux op cl (some (c :: pend)) rest by
      simp [subDelimAux, hcl, hnl]] at hx
    rcases ih x hx with h | h
    · simp at h
      rcases h with rfl | h'
      · simp
      · simp [h']
    · simp [h]

theorem subFeat_nil (m : ScanMode) : subFeatAux m [] = [] := by
  cases m <;> rfl

theorem subFeat_fire (rest : List Char) :
    subFeatAux (.scan false) ('f' :: 'e' :: 'a' :: 't' :: '.' :: rest) =
      subFeatAux .skipLine rest := by
  simp [subFeatAux]

theorem subFeat_nofire (rest : List Char) :
    subFeatAux (.scan true) ('f' :: 'e' :: 'a' :: 't' :: '.' :: rest) =
      'f' :: subFeatAux (.scan true) ('e' :: 'a' :: 't' :: '.' :: rest) := by
  simp [subFeatAux]

theorem subFeat_skip_nl (rest : List Char) :
    subFeatAux .skipLine ('\n' :: rest) = '\n' :: subFeatAux (.scan false) rest := by
  simp [subFeatAux]

theorem subFeat_skip_other {c : Char} (rest : List Char) (h : ¬c = '\n') :
    subFeatAux .skipLine (c :: rest) = subFeatAux .skipLine rest := by
  simp [subFeatAux, h]

theorem subFeat_scan_other (p : Bool) {c : Char} {rest : List Char}
    (hne : ∀ rest2, c = 'f' → rest = 'e' :: 'a' :: 't' :: '.' :: rest2 → False) :
    subFeatAux (.scan p) (c :: rest) = c :: subFeatAux (.scan (isWordChar c)) rest := by
  rw [subFeatAux.eq_def]
  split
  · rename_i h1 h2
    injection h2 with hc hr
    exact (hne _ hc hr).elim
  · rename_i hm hl
    exact ScanMode.noConfusion hm
  · rename_i hm h1 h2
    injection h2 with hc hr
    rw [← hc, ← hr]
  · rename_i h
    exact List.noConfusion h

theorem subFt_nil (m : ScanMode) : subFtAux m [] = [] := by
  cases m <;> rfl

theorem subFt_fire (rest : List Char) :
    subFtAux (.scan false) ('f' :: 't' :: '.' :: rest) = subFtAux .skipLine rest := by
  simp [subFtAux]

theorem subFt_nofire (rest : List Char) :
    subFtAux (.scan true) ('f' :: 't' :: '.' :: rest) =
      'f' :: subFtAux (.scan true) ('t' :: '.' :: rest) := by
  simp [subFtAux]

theorem subFt_skip_nl (rest : List Char) :
    subFtAux .skipLine ('\n' :: rest) = '\n' :: subFtAux (.scan false) rest := by
  simp [subFtAux]

theorem subFt_skip_other {c : Char} (rest : List Char) (h : ¬c = '\n') :
    subFtAux .skipLine (c :: rest) = subFtAux .skipLine rest := by
  simp [subFtAux, h]

theorem subFt_scan_other (p : Bool) {c : Char} {rest : List Char}
    (hne : ∀ rest2, c = 'f' → rest = 't' :: '.' :: rest2 → False) :
    subFtAux (.scan p) (c :: rest) = c :: subFtAux (.scan (isWordChar c)) rest := by
  rw [subFtAux.eq_def]
  split
  · rename_i h1 h2
    injection h2 with hc hr
    exact (hne _ hc hr).elim
  · rename_i hm hl
    exact ScanMode.noConfusion hm
  · rename_i hm h1 h2
    injection h2 with hc hr
    rw [← hc, ← hr]
  · rename_i h
    exact List.noConfusion h

theorem subThe_nil (p : Bool) : subTheAux p [] = [] := rfl

theorem subThe_the_fire {prev : Bool} {rest : List Char}
    (h : (!prev && boundaryOk rest) = true) :
    subTheAux prev ('t' :: 'h' :: 'e' :: rest) = subTheAux true rest := by
  simp only [subTheAux]
  rw [if_pos h]

theorem subThe_the_nofire {prev : Bool} {rest : List Char}
    (h : (!prev && boundaryOk rest) = false) :
    subTheAux prev ('t' :: 'h' :: 'e' :: rest) =
      't' :: subTheAux true ('h' :: 'e' :: rest) := by
  simp only [subTheAux]
  rw [if_neg (by simp [h])]

theorem subThe_other (p : Bool) {c : Char} {rest : List Char}
    (hne : ∀ rest2, c = 't' → rest = 'h' :: 'e' :: rest2 → False) :
    subTheAux p (c :: rest) = c :: subTheAux (isWordChar c) rest := by
  rw [subTheAux.eq_def]
  split
  · rename_i h1 h2
    injection h2 with hc hr
    exact (hne _ hc hr).elim
  · rename_i hm h1 h2
    injection h2 with hc hr
    rw [← hc, ← hr]
  · rename_i h
    exact List.noConfusion h

theorem hasThe_nil (p : Bool) : hasThe p [] = false := rfl

theorem hasThe_the (p : Bool) (rest : List Char) :
    hasThe p ('t' :: 'h' :: 'e' :: rest) =
      ((!p && boundaryOk rest) || hasThe true ('h' :: 'e' :: rest)) := by
  simp [hasThe]

theorem hasThe_other (p : Bool) {c : Char} {rest : List Char}
    (hne : ∀ rest2, c = 't' → rest = 'h' :: 'e' :: rest2 → False) :
    hasThe p (c :: rest) = hasThe (isWordChar c) rest := by
  rw [hasThe.eq_def]
  split
  · rename_i h1 h2
    injection h2 with hc hr
    exact (hne _ hc hr).elim
  · rename_i hm h1 h2
    injection h2 with hc hr
    rw [← hc, ← hr]
  · rename_i h
    exact List.noConfusion h

theorem mem_subFeatAux :
    ∀ (m : ScanMode) (l : List Char) (x : Char), x ∈ subFeatAux m l → x ∈ l := by
  intro m l
  induction m, l using subFeatAux.induct with
  | case1 rest ih =>
    intro x hx
    rw [subFeat_nofire] at hx
    rcases List.mem_cons.mp hx with rfl | h
    · simp
    · have := ih x h
      simp at this
      simp [this]
  | case2 prev rest hprev ih =>
    intro x hx
    have hp : prev = false := by simpa using hprev
    subst hp
    rw [subFeat_fire] at hx
    have := ih x hx
    simp [this]
  | case3 rest ih =>
    intro x hx
    rw [subFeat_skip_nl] at hx
    rcases List.mem_cons.mp hx with rfl | h
    · simp
    · simp [ih x h]
  | case4 c rest hnl ih =>
    intro x hx
    rw [subFeat_skip_other rest hnl] at hx
    simp [ih x hx]
  | case5 prevWord c rest hne ih =>
    intro x hx
    rw [subFeat_scan_other prevWord hne] at hx
    rcases List.mem_cons.mp hx with rfl | h
    · simp
    · simp [ih x h]
  | case6 m =>
    intro x hx
    rw [subFeat_nil] at hx
    simp at hx

theorem mem_subFtAux :
    ∀ (m : ScanMode) (l : List Char) (x : Char), x ∈ subFtAux m l → x ∈ l := by
  intro m l
  induction m, l using subFtAux.induct with
  | case1 rest ih =>
    intro x hx
    rw [subFt_nofire] at hx
    rcases List.mem_cons.mp hx with rfl | h
    · simp
    · have := ih x h
      simp at this
      simp [this]
  | case2 prev rest hprev ih =>
    intro x hx
    have hp : prev = false := by simpa using hprev
    subst hp
    rw [subFt_fire] at hx
    have := ih x hx
    simp [this]
  | case3 rest ih =>
    intro x hx
    rw [subFt_skip_nl] at hx
    rcases List.mem_cons.mp hx with rfl | h
    · simp
    · simp [ih x h]
  | case4 c rest hnl ih =>
    intro x hx
    rw [subFt_skip_other rest hnl] at hx
    simp [ih x hx]
  | case5 prevWord c rest hne ih =>
    intro x hx
    rw [subFt_scan_other prevWord hne] at hx
    rcases List.mem_cons.mp hx with rfl | h
    · simp
    · simp [ih x h]
  | case6 m =>
    intro x hx
    rw [subFt_nil] at hx
    simp at hx

theorem mem_subTheAux :
    ∀ (p : Bool) (l : List Char) (x : Char), x ∈ subTheAux p l → x ∈ l := by
  intro p l
  induction p, l using subTheAux.induct with
  | case1 prev rest hcond ih =>
    intro x hx
    rw [subThe_the_fire hcond] at hx
    have := ih x hx
    simp [this]
  | case2 prev rest hcond ih =>
    intro x hx
    rw [subThe_the_nofire (by simpa using hcond)] at hx
    rcases List.mem_cons.mp hx with rfl | h
    · simp
    · have := ih x h
      simp at this
      simp [this]
  | case3 p c rest hne ih =>
    intro x hx
    rw [subThe_other p hne] at hx
    rcases List.mem_cons.mp hx with rfl | h
    · simp
    · simp [ih x h]
  | case4 p =>
    intro x hx
    simp [subTheAux] at hx

theorem mem_rstrip : ∀ (l : List Char) (x : Char), x ∈ rstrip l → x ∈ l := by
  intro l
  induction l with
  | nil => intro x hx; simp [rstrip] at hx
  | cons c rest ih =>
    intro x hx
    rw [show rstrip (c :: rest) =
        (match rstrip rest with
         | [] => if isSpaceChar c then [] else [c]
         | r => c :: r) from rfl] at hx
    rcases hr : rstrip rest with _ | ⟨y, ys⟩
    · rw [hr] at hx
      split_ifs at hx with hsp
      · simp at hx
      · simp at hx
        simp [hx]
    · rw [hr] at hx
      rcases List.mem_cons.mp hx with rfl | h
      · simp
      · have := ih x (hr ▸ h)
        simp [this]

theorem mem_lstrip {x : Char} (l : List Char) (h : x ∈ lstrip l) : x ∈ l := by
  unfold lstrip at h
  exact (List.dropWhile_sublist _).mem h

theorem mem_pyStrip {x : Char} (l : List Char) (h : x ∈ pyStrip l) : x ∈ l := by
  unfold pyStrip at h
  exact mem_rstrip l x (mem_lstrip _ h)

/-!
## Idempotence of `_normalise`: stage-identity lemmas
-/

theorem subDelim_cons_ne {op cl c : Char} (rest : List Char) (h : ¬c = op) :
    subDelimAux op cl none (c :: rest) = c :: subDelimAux op cl none rest := by
  simp [subDelimAux, h]

theorem subDelimAux_id {op cl : Char} {l : List Char} (h : op ∉ l) :
    subDelimAux op cl none l = l := by
  induction l with
  | nil => rfl
  | cons c rest ih =>
    have hc : ¬c = op := fun he => h (by simp [he])
    rw [subDelim_cons_ne rest hc, ih (fun hm => h (by simp [hm]))]

theorem subFeatAux_id {l : List Char} (h : '.' ∉ l) (p : Bool) :
    subFeatAux (.scan p) l = l := by
  induction l generalizing p with
  | nil => rfl
  | cons c rest ih =>
    have hne : ∀ rest2, c = 'f' → rest = 'e' :: 'a' :: 't' :: '.' :: rest2 → False := by
      intro rest2 _ hr
      exact h (by simp [hr])
    rw [subFeat_scan_other p hne, ih (fun hm => h (by simp [hm]))]

theorem subFtAux_id {l : List Char} (h : '.' ∉ l) (p : Bool) :
    subFtAux (.scan p) l = l := by
  induction l generalizing p with
  | nil => rfl
  | cons c rest ih =>
    have hne : ∀ rest2, c = 'f' → rest = 't' :: '.' :: rest2 → False := by
      intro rest2 _ hr
      exact h (by simp [hr])
    rw [subFt_scan_other p hne, ih (fun hm => h (by simp [hm]))]

theorem subTheAux_id : ∀ (l : List Char) (p : Bool), hasThe p l = false →
    subTheAux p l = l := by
  intro l
  induction l with
  | nil => intro p _; rfl
  | cons c rest ih =>
    intro p h
    by_cases hthe : ∃ rest2, c = 't' ∧ rest = 'h' :: 'e' :: rest2
    · obtain ⟨rest2, rfl, rfl⟩ := hthe
      rw [hasThe_the] at h
      have h1 : (!p && boundaryOk rest2) = false := by
        rcases Bool.or_eq_false_iff.mp h with ⟨h1, _⟩
        exact h1
      have h2 : hasThe true ('h' :: 'e' :: rest2) = false := by
        rcases Bool.or_eq_false_iff.mp h with ⟨_, h2⟩
        exact h2
      rw [subThe_the_nofire h1, ih true h2]
    · have hne : ∀ rest2, c = 't' → rest = 'h' :: 'e' :: rest2 → False := by
        intro rest2 hc hr
        exact hthe ⟨rest2, hc, hr⟩
      rw [hasThe_other p hne] at h
      rw [subThe_other p hne, ih (isWordChar c) h]

/-!
## Idempotence of `_normalise`: the strip algebra
-/

theorem rstrip_cons (c : Char) (rest : List Char) :
    rstrip (c :: rest) =
      (match rstrip rest with
       | [] => if isSpaceChar c then [] else [c]
       | r => c :: r) := rfl

theorem lstrip_cons_space {c : Char} (rest : List Char) (h : isSpaceChar c = true) :
    lstrip (c :: rest) = lstrip rest := by
  simp [lstrip, List.dropWhile_cons, h]

theorem lstrip_cons_not_space {c : Char} (rest : List Char) (h : isSpaceChar c = false) :
    lstrip (c :: rest) = c :: rest := by
  simp [lstrip, List.dropWhile_cons, h]

theorem lstrip_idem (l : List Char) : lstrip (lstrip l) = lstrip l := by
  induction l with
  | nil => rfl
  | cons c rest ih =>
    cases hc : isSpaceChar c with
    | true => rw [lstrip_cons_space rest hc, ih]
    | false => rw [lstrip_cons_not_space rest hc, lstrip_cons_not_space rest hc]

theorem rstrip_idem (l : List Char) : rstrip (rstrip l) = rstrip l := by
  induction l with
  | nil => rfl
  | cons c rest ih =>
    rw [rstrip_cons]
    cases hr : rstrip rest with
    | nil =>
      cases hc : isSpaceChar c with
      | true => rfl
      | false =>
        show rstrip [c] = [c]
        rw [rstrip_cons]
        simp [rstrip, hc]
    | cons y ys =>
      rw [hr] at ih
      rw [rstrip_cons]
      rw [ih]

theorem lstrip_rstrip_comm (l : List Char) : lstrip (rstrip l) = rstrip (lstrip l) := by
  induction l with
  | nil => rfl
  | cons c rest ih =>
    cases hc : isSpaceChar c with
    | true =>
      have hrhs : rstrip (lstrip (c :: rest)) = lstrip (rstrip rest) := by
        rw [lstrip_cons_space rest hc, ← ih]
      rw [hrhs, rstrip_cons]
      cases hr : rstrip rest with
      | nil =>
        rw [hc]
        rfl
      | cons y ys => rw [lstrip_cons_space _ hc]
    | false =>
      rw [lstrip_cons_not_space rest hc, rstrip_cons_of_not_space hc,
        lstrip_cons_not_space _ hc]

theorem pyStrip_idem (l : List Char) : pyStrip (pyStrip l) = pyStrip l := by
  unfold pyStrip
  rw [← lstrip_rstrip_comm (rstrip l), rstrip_idem l, lstrip_idem (rstrip l)]

theorem lstrip_decomp (l : List Char) :
    ∃ s, l = s ++ lstrip l ∧ ∀ c ∈ s, isSpaceChar c = true := by
  refine ⟨l.takeWhile isSpaceChar, ?_, ?_⟩
  · exact (List.takeWhile_append_dropWhile isSpaceChar l).symm
  · intro c hc
    exact List.mem_takeWhile_imp hc

theorem rstrip_decomp (l : List Char) :
    ∃ s, l = rstrip l ++ s ∧ ∀ c ∈ s, isSpaceChar c = true := by
  induction l with
  | nil => exact ⟨[], rfl, by simp⟩
  | cons c rest ih =>
    obtain ⟨s, hs, hsp⟩ := ih
    rw [rstrip_cons]
    cases hr : rstrip rest with
    | nil =>
      rw [hr] at hs
      cases hc : isSpaceChar c with
      | true =>
        refine ⟨c :: rest, ?_, ?_⟩
        · rfl
        · intro x hx
          rcases List.mem_cons.mp hx with rfl | hx'
          · exact hc
          · rw [hs] at hx'
            exact hsp x (by simpa using hx')
      | false =>
        refine ⟨s, ?_, hsp⟩
        rw [hs]
        simp
    | cons y ys =>
      rw [hr] at hs
      refine ⟨s, ?_, hsp⟩
      rw [hs]
      rfl

/-!
## Idempotence of `_normalise`: no standalone `the` survives `subTheAux`
-/

theorem getLast?_cons_of_ne_nil {c : Char} {u : List Char} (h : u ≠ []) :
    (c :: u).getLast? = u.getLast? := by
  cases u with
  | nil => exact absurd rfl h
  | cons b l => exact List.getLast?_cons_cons

theorem subThe_true_cons (c : Char) (r : List Char) :
    subTheAux true (c :: r) = c :: subTheAux (isWordChar c) r := by
  by_cases hthe : ∃ rest2, c = 't' ∧ r = 'h' :: 'e' :: rest2
  · obtain ⟨rest2, rfl, rfl⟩ := hthe
    rw [subThe_the_nofire (by simp)]
    have hw : isWordChar 't' = true := by decide
    rw [hw]
  · exact subThe_other true (fun rest2 hc hr => hthe ⟨rest2, hc, hr⟩)

theorem hasThe_eq_of_nonword_head {X : List Char} (p q : Bool)
    (h : X = [] ∨ ∃ c t, X = c :: t ∧ isWordChar c = false) :
    hasThe p X = hasThe q X := by
  rcases h with rfl | ⟨c, t, rfl, hc⟩
  · rfl
  · have hct : ∀ rest2, c = 't' → t = 'h' :: 'e' :: rest2 → False := by
      intro _ he _
      rw [he] at hc
      exact absurd hc (by decide)
    rw [hasThe_other p hct, hasThe_other q hct]

theorem hasThe_subThe : ∀ (p : Bool) (l : List Char),
    hasThe p (subTheAux p l) = false := by
  intro p l
  induction p, l using subTheAux.induct with
  | case1 prev rest hcond ih =>
    rw [subThe_the_fire hcond]
    have hb : boundaryOk rest = true := (Bool.and_eq_true_iff.mp hcond).2
    cases rest with
    | nil =>
      rw [subThe_nil]
      rfl
    | cons c r =>
      have hcw : isWordChar c = false := by simpa [boundaryOk] using hb
      rw [subThe_true_cons,
        hasThe_eq_of_nonword_head prev true (Or.inr ⟨c, _, rfl, hcw⟩),
        ← subThe_true_cons]
      exact ih
  | case2 prev rest hcond ih =>
    have hcond' : (!prev && boundaryOk rest) = false := by simpa using hcond
    rw [subThe_the_nofire hcond']
    have hX : subTheAux true ('h' :: 'e' :: rest) = 'h' :: 'e' :: subTheAux true rest := by
      rw [subThe_true_cons]
      have h1 : isWordChar 'h' = true := by decide
      rw [h1, subThe_true_cons]
      have h2 : isWordChar 'e' = true := by decide
      rw [h2]
    rw [hX, hasThe_the]
    have hright : hasThe true ('h' :: 'e' :: subTheAux true rest) = false := by
      rw [← hX]
      exact ih
    rw [hright]
    cases hp : prev with
    | true => simp
    | false =>
      have hbrest : boundaryOk rest = false := by
        rw [hp] at hcond'
        simpa using hcond'
      cases rest with
      | nil => simp [boundaryOk] at hbrest
      | cons d r2 =>
        have hd : isWordChar d = true := by simpa [boundaryOk] using hbrest
        rw [subThe_true_cons]
        simp [boundaryOk, hd]
  | case3 p c rest hne ih =>
    rw [subThe_other p hne]
    have hne2 : ∀ rest2, c = 't' →
        subTheAux (isWordChar c) rest = 'h' :: 'e' :: rest2 → False := by
      intro rest2 hc hX
      subst hc
      have hw : isWordChar 't' = true := by decide
      rw [hw] at hX
      cases rest with
      | nil => rw [subThe_nil] at hX; exact List.noConfusion hX
      | cons y r3 =>
        rw [subThe_true_cons] at hX
        injection hX with hy htail
        subst hy
        have hwh : isWordChar 'h' = true := by decide
        rw [hwh] at htail
        cases r3 with
        | nil => rw [subThe_nil] at htail; exact List.noConfusion htail
        | cons z r4 =>
          rw [subThe_true_cons] at htail
          injection htail with hz _
          subst hz
          exact hne r4 rfl rfl
    rw [hasThe_other p hne2]
    exact ih
  | case4 p => rfl

/-!
## Idempotence of `_normalise`: `hasThe` as a decomposition, and stripping
-/

theorem hasThe_of_decomp :
    ∀ (u : List Char) (p : Bool) (v : List Char), boundaryOk v = true →
      ((u = [] ∧ p = false) ∨ (∃ c, u.getLast? = some c ∧ isWordChar c = false)) →
      hasThe p (u ++ 't' :: 'h' :: 'e' :: v) = true := by
  intro u
  induction u with
  | nil =>
    intro p v hv hbranch
    have hp : p = false := by
      rcases hbranch with ⟨_, hp⟩ | ⟨c, hc, _⟩
      · exact hp
      · simp at hc
    subst hp
    rw [List.nil_append, hasThe_the]
    simp [hv]
  | cons c u' ih =>
    intro p v hv hbranch
    by_cases hthe : ∃ rest2, c = 't' ∧ u' ++ 't' :: 'h' :: 'e' :: v = 'h' :: 'e' :: rest2
    · obtain ⟨rest2, rfl, heq⟩ := hthe
      rw [List.cons_append, heq, hasThe_the]
      have hbr' : (u' = [] ∧ True) ∨
          (∃ d, u'.getLast? = some d ∧ isWordChar d = false) := by
        rcases hbranch with ⟨habs, _⟩ | ⟨d, hd, hw⟩
        · exact List.noConfusion habs
        · cases u' with
          | nil =>
            simp at hd
            rw [← hd] at hw
            exact absurd hw (by decide)
          | cons b u'' =>
            rw [getLast?_cons_of_ne_nil (by simp)] at hd
            exact Or.inr ⟨d, hd, hw⟩
      have hright : hasThe true ('h' :: 'e' :: rest2) = true := by
        rw [← heq]
        apply ih true v hv
        rcases hbr' with ⟨hu0, _⟩ | ⟨d, hd, hw⟩
        · exact absurd (hu0 ▸ heq) (by subst hu0; simp)
        · exact Or.inr ⟨d, hd, hw⟩
      simp [hright]
    · have hne : ∀ rest2, c = 't' → u' ++ 't' :: 'h' :: 'e' :: v = 'h' :: 'e' :: rest2 →
          False := fun rest2 hc hr => hthe ⟨rest2, hc, hr⟩
      rw [List.cons_append, hasThe_other p hne]
      apply ih (isWordChar c) v hv
      rcases hbranch with ⟨habs, _⟩ | ⟨d, hd, hw⟩
      · exact List.noConfusion habs
      · cases u' with
        | nil =>
          left
          refine ⟨rfl, ?_⟩
          simp at hd
          rw [← hd] at hw
          exact hw
        | cons b u'' =>
          right
          rw [getLast?_cons_of_ne_nil (by simp)] at hd
          exact ⟨d, hd, hw⟩

theorem decomp_of_hasThe :
    ∀ (l : List Char) (p : Bool), hasThe p l = true →
      ∃ u v, l = u ++ 't' :: 'h' :: 'e' :: v ∧ boundaryOk v = true ∧
        ((u = [] ∧ p = false) ∨ (∃ c, u.getLast? = some c ∧ isWordChar c = false)) := by
  intro l
  induction l with
  | nil =>
    intro p h
    exact absurd h (by simp [hasThe_nil])
  | cons c xs ih =>
    intro p h
    by_cases hthe : ∃ rest2, c = 't' ∧ xs = 'h' :: 'e' :: rest2
    · obtain ⟨rest2, rfl, rfl⟩ := hthe
      rw [hasThe_the] at h
      rcases Bool.or_eq_true_iff.mp h with h1 | h2
      · have hp : p = false := by
          rcases Bool.and_eq_true_iff.mp h1 with ⟨hp', _⟩
          simpa using hp'
        have hb : boundaryOk rest2 = true := (Bool.and_eq_true_iff.mp h1).2
        exact ⟨[], rest2, rfl, hb, Or.inl ⟨rfl, hp⟩⟩
      · obtain ⟨u', v', heq, hb, hbr⟩ := ih true h2
        rcases hbr with ⟨_, habs⟩ | ⟨d, hd, hw⟩
        · exact absurd habs (by simp)
        · refine ⟨'t' :: u', v', ?_, hb, Or.inr ⟨d, ?_, hw⟩⟩
          · rw [List.cons_append, ← heq]
          · have hu' : u' ≠ [] := by
              intro he
              rw [he] at hd
              simp at hd
            rw [getLast?_cons_of_ne_nil hu']
            exact hd
    · have hne : ∀ rest2, c = 't' → xs = 'h' :: 'e' :: rest2 → False :=
        fun rest2 hc hr => hthe ⟨rest2, hc, hr⟩
      rw [hasThe_other p hne] at h
      obtain ⟨u', v', heq, hb, hbr⟩ := ih (isWordChar c) h
      rcases hbr with ⟨hu0, hpw⟩ | ⟨d, hd, hw⟩
      · subst hu0
        refine ⟨[c], v', ?_, hb, Or.inr ⟨c, by simp, hpw⟩⟩
        rw [heq]
        simp
      · refine ⟨c :: u', v', ?_, hb, Or.inr ⟨d, ?_, hw⟩⟩
        · rw [List.cons_append, ← heq]
        · have hu' : u' ≠ [] := by
            intro he
            rw [he] at hd
            simp at hd
          rw [getLast?_cons_of_ne_nil hu']
          exact hd

theorem boundaryOk_append {v s : List Char} (hv : boundaryOk v = true)
    (hs : ∀ c ∈ s, isSpaceChar c = true) : boundaryOk (v ++ s) = true := by
  cases v with
  | nil =>
    cases s with
    | nil => rfl
    | cons d s' =>
      have := isWordChar_of_space (hs d (by simp))
      simp [boundaryOk, this]
  | cons c v' => simpa [boundaryOk] using hv

theorem hasThe_pyStrip {l : List Char} (h : hasThe false l = false) :
    hasThe false (pyStrip l) = false := by
  by_contra hcon
  have htrue : hasThe false (pyStrip l) = true := by
    cases hx : hasThe false (pyStrip l) with
    | true => rfl
    | false => exact absurd hx hcon
  obtain ⟨u, v, heq, hb, hbr⟩ := decomp_of_hasThe (pyStrip l) false htrue
  obtain ⟨s2, hs2, hsp2⟩ := rstrip_decomp l
  obtain ⟨s1, hs1, hsp1⟩ := lstrip_decomp (rstrip l)
  have hl : l = (s1 ++ u) ++ 't' :: 'h' :: 'e' :: (v ++ s2) := by
    have hmid : rstrip l = s1 ++ pyStrip l := hs1
    rw [hs2, hmid, heq]
    simp
  have hbranch : ((s1 ++ u = [] ∧ (false : Bool) = false) ∨
      (∃ d, (s1 ++ u).getLast? = some d ∧ isWordChar d = false)) := by
    rcases hbr with ⟨hu0, _⟩ | ⟨d, hd, hw⟩
    · subst hu0
      cases hs1n : s1 with
      | nil => exact Or.inl ⟨by simp, rfl⟩
      | cons a s1' =>
        have hne : s1 ≠ [] := by rw [hs1n]; simp
        have hsome : s1.getLast?.isSome := List.getLast?_isSome.mpr hne
        obtain ⟨d, hd⟩ := Option.isSome_iff_exists.mp hsome
        have hdm : d ∈ s1 := List.mem_of_getLast?_eq_some hd
        refine Or.inr ⟨d, ?_, isWordChar_of_space (hsp1 d hdm)⟩
        rw [← hs1n]
        simpa using hd
    · refine Or.inr ⟨d, ?_, hw⟩
      rw [List.getLast?_append, hd]
      rfl
  have := hasThe_of_decomp (s1 ++ u) false (v ++ s2)
    (boundaryOk_append hb hsp2) hbranch
  rw [← hl] at this
  exact absurd this (by simp [h])

/-!
## Idempotence of `_normalise`: assembly
-/

theorem normalise_chars_keep {s : List Char} {c : Char} (h : c ∈ _normalise s) :
    keepChar c = true := by
  unfold _normalise at h
  have h1 := mem_pyStrip _ h
  have h2 := mem_subTheAux _ _ _ h1
  exact List.of_mem_filter h2

theorem normalise_chars_lower {s : List Char} {c : Char} (h : c ∈ _normalise s) :
    Char.toLower c = c := by
  unfold _normalise at h
  have h1 := mem_pyStrip _ h
  have h2 := mem_subTheAux _ _ _ h1
  have h3 := List.mem_of_mem_filter h2
  have h4 := mem_subFtAux _ _ _ h3
  have h5 := mem_subFeatAux _ _ _ h4
  have h6 := mem_subDelimAux _ _ _ h5
  rcases h6 with h6 | h6
  · simp at h6
  · have h7 := mem_subDelimAux _ _ _ h6
    rcases h7 with h7 | h7
    · simp at h7
    · rcases List.mem_map.mp h7 with ⟨d, _, rfl⟩
      exact toLower_toLower d

theorem normalise_no_the (s : List Char) : hasThe false (_normalise s) = false := by
  unfold _normalise
  exact hasThe_pyStrip (hasThe_subThe false _)

theorem normalise_stripped (s : List Char) : pyStrip (_normalise s) = _normalise s := by
  unfold _normalise
  exact pyStrip_idem _

/-- C8: `_normalise` is idempotent: normalising an already-normalised artist
name changes nothing, because every stage of the pipeline is the identity on
the pipeline's own output (lower-case, free of parentheses, brackets, dots
and other punctuation, free of standalone `the`, and stripped). -/
theorem C8_normalise_idempotent (s : List Char) :
    _normalise (_normalise s) = _normalise s := by
  have hkeep : ∀ c ∈ _normalise s, keepChar c = true :=
    fun c hc => normalise_chars_keep hc
  have hlower : ∀ c ∈ _normalise s, Char.toLower c = c :=
    fun c hc => normalise_chars_lower hc
  have hparen : '(' ∉ _normalise s := by
    intro hm
    exact absurd (hkeep _ hm) (by decide)
  have hbrack : '[' ∉ _normalise s := by
    intro hm
    exact absurd (hkeep _ hm) (by decide)
  have hdot : '.' ∉ _normalise s := by
    intro hm
    exact absurd (hkeep _ hm) (by decide)
  rw [show _normalise (_normalise s) =
      pyStrip (subTheAux false (List.filter keepChar (subFtAux (.scan false)
        (subFeatAux (.scan false) (subDelimAux '[' ']' none
          (subDelimAux '(' ')' none ((_normalise s).map Char.toLower)))))))
    from rfl]
  rw [map_toLower_id hlower, subDelimAux_id hparen, subDelimAux_id hbrack,
    subFeatAux_id hdot false, subFtAux_id hdot false,
    List.filter_eq_self.mpr hkeep, subTheAux_id _ false (normalise_no_the s),
    normalise_stripped s]

end Muziekspel
